import Mathlib

/-!
Verification of the Cineville visit-processing pipeline
(`backend/logic.py`, output helpers in `backend/io.py`).

The embedding models:
* Python `str.strip()` as `Cineville.strip` (drop leading/trailing whitespace
  from the character data);
* Python string comparison as lexicographic comparison of the character data
  (`String.data`, ordered by code point exactly as in Python);
* Python `dict` values as association lists in insertion order with unique
  keys (Python 3.7+ dicts preserve insertion order, and `defaultdict` adds a
  fresh key at the end);
* Python's stable `sorted` as `List.insertionSort` — the sort keys used by the
  code are injective on the sorted items, so any sorting algorithm yields the
  same (unique) sorted list;
* files as their string contents, with `"\n"` written after every line, just
  as `logic.write_output` does.
-/

namespace Cineville

/-- Model of Python `str.strip()`: remove leading and trailing whitespace. -/
def strip (s : String) : String :=
  ⟨((s.data.dropWhile Char.isWhitespace).reverse.dropWhile Char.isWhitespace).reverse⟩

/-- `members.csv` mapping `barcode → member_id`, in insertion order
(`load_members` in `logic.py` returns `Dict[str, str]`). -/
abbrev Members := List (String × String)

/-- The `(member_id, barcode)` grouping key of `validate_and_group_visits`. -/
abbrev GroupKey := String × String

/-- `grouped_data : dict[(member_id, barcode)] -> [visit_id, ...]` in insertion
order, as returned by `validate_and_group_visits`. -/
abbrev GroupedVisits := List (GroupKey × List String)

/-- `logic.py` dataclass `Visit(visit_id, barcode, reservation_id)`. -/
structure Visit where
  visit_id : String
  barcode : String
  reservation_id : Option String
deriving DecidableEq

/-- A raw row of `members.csv` as produced by `csv.DictReader`:
a missing column is `none` (the code normalizes it with `or ""`). -/
structure MemberRow where
  member_id : Option String
  barcode : Option String
deriving DecidableEq

/-- A raw row of `visits.csv` as produced by `csv.DictReader`. -/
structure VisitRow where
  visit_id : Option String
  barcode : Option String
  reservation_id : Option String
deriving DecidableEq

/-- The row loop of `load_members` (`logic.py` lines 60–79), with the mapping
built so far as accumulator.  Each surviving row appends
`barcode ↦ member_id` at the end (Python dict insertion order). -/
def load_membersAux (acc : Members) : List MemberRow → Members
  | [] => acc
  | row :: rest =>
    let member_id := strip (row.member_id.getD "")
    let barcode := strip (row.barcode.getD "")
    if member_id = "" ∨ barcode = "" then load_membersAux acc rest
    else if (acc.lookup barcode).isSome then load_membersAux acc rest
    else load_membersAux (acc ++ [(barcode, member_id)]) rest

/-- `logic.load_members`: build the `barcode → member_id` mapping, skipping
rows with a missing field and rows whose barcode is already present. -/
def load_members (rows : List MemberRow) : Members :=
  load_membersAux [] rows

/-- `logic.load_visits` (lines 97–111): trim the fields, normalize an empty
`reservation_id` to `None`, and drop rows whose `visit_id` is empty. -/
def load_visits : List VisitRow → List Visit
  | [] => []
  | row :: rest =>
    let visit_id := strip (row.visit_id.getD "")
    let barcode := strip (row.barcode.getD "")
    let reservation_id := strip (row.reservation_id.getD "")
    if visit_id = "" then load_visits rest
    else { visit_id := visit_id, barcode := barcode,
           reservation_id := if reservation_id = "" then none
                             else some reservation_id } :: load_visits rest

/-- `grouped[(member_id, barcode)].append(visit_id)` on a `defaultdict(list)`:
append to the entry if the key exists, otherwise add a new key at the end. -/
def addVisit : GroupedVisits → GroupKey → String → GroupedVisits
  | [], k, vid => [(k, [vid])]
  | (k', vs) :: rest, k, vid =>
    if k' = k then (k', vs ++ [vid]) :: rest
    else (k', vs) :: addVisit rest k vid

/-- One iteration of the `for v in visits` loop of
`validate_and_group_visits` (lines 132–151).  `(members.lookup _).getD ""`
models Python's `members.get(barcode)` followed by the falsy test
`if not member_id`, which rejects both a missing key and an empty value. -/
def vgStep (members : Members) (acc : GroupedVisits × Nat) (v : Visit) :
    GroupedVisits × Nat :=
  if v.barcode = "" then acc
  else
    let member_id := (members.lookup v.barcode).getD ""
    if member_id = "" then acc
    else (addVisit acc.1 (member_id, v.barcode) v.visit_id,
          if v.reservation_id.isNone then acc.2 + 1 else acc.2)

/-- `logic.validate_and_group_visits`: returns the grouped map and the
walk-in count. -/
def validate_and_group_visits (members : Members) (visits : List Visit) :
    GroupedVisits × Nat :=
  visits.foldl (vgStep members) ([], 0)

/-- A visit passes both barcode checks of `validate_and_group_visits`:
its barcode is non-empty and resolves to a non-empty `member_id`. -/
def passesChecks (members : Members) (v : Visit) : Bool :=
  !(v.barcode == "") && !((members.lookup v.barcode).getD "" == "")

/-- `visits_per_member[member_id] += len(visit_ids)` on a `defaultdict(int)`. -/
def addCount : List (String × Nat) → String → Nat → List (String × Nat)
  | [], m, c => [(m, c)]
  | (k, n) :: rest, m, c =>
    if k = m then (k, n + c) :: rest
    else (k, n) :: addCount rest m c

/-- The per-member visit totals accumulated by `build_summary` and
`print_top_members` (insertion order of first occurrence, unique keys). -/
def visits_per_member (grouped_data : GroupedVisits) : List (String × Nat) :=
  grouped_data.foldl (fun acc kv => addCount acc kv.1.1 kv.2.length) []

/-- The sort key `lambda item: (-item[1], item[0])` of `build_summary` and
`print_top_members`, as a relation: descending count, then ascending
member_id (Python string order = code-point lexicographic = `String.data`
order). -/
abbrev rankLE (a b : String × Nat) : Prop :=
  b.2 < a.2 ∨ (a.2 = b.2 ∧ a.1.data ≤ b.1.data)

/-- Summary object of `logic.build_summary` (the `generated_at` wall-clock
timestamp is outside the embedding). -/
structure Summary where
  total_valid_visits : Nat
  total_walk_ins : Nat
  top_members : List (String × Nat)
deriving DecidableEq

/-- `logic.build_summary` (lines 207–234): accumulate per-member counts and
the total, then sort by `(-count, member_id)` and keep the first `top_n`. -/
def build_summary (grouped_data : GroupedVisits) (walk_in_count : Nat)
    (top_n : Nat) : Summary :=
  let r := grouped_data.foldl
    (fun (acc : List (String × Nat) × Nat) kv =>
      (addCount acc.1 kv.1.1 kv.2.length, acc.2 + kv.2.length)) ([], 0)
  { total_valid_visits := r.2
    total_walk_ins := walk_in_count
    top_members := (List.insertionSort rankLE r.1).take top_n }

/-- The `(member_id, count)` lines printed by `logic.print_top_members`
(lines 174–194): same accumulation and same sort as `build_summary`. -/
def print_top_members (grouped_data : GroupedVisits) (top_n : Nat) :
    List (String × Nat) :=
  let visits_per := grouped_data.foldl
    (fun acc kv => addCount acc kv.1.1 kv.2.length) []
  (List.insertionSort rankLE visits_per).take top_n

/-- `", ".join(visit_ids)` from `logic.write_output` line 170. -/
def joinIds : List String → String
  | [] => ""
  | [v] => v
  | v :: vs => v ++ ", " ++ joinIds vs

/-- The Python tuple order used by `sorted(grouped_data)` in
`logic.write_output`: lexicographic on `(member_id, barcode)` with
code-point string comparison. -/
abbrev keyLE (a b : GroupKey) : Prop :=
  a.1.data < b.1.data ∨ (a.1.data = b.1.data ∧ a.2.data ≤ b.2.data)

/-- Writing one string per line with a trailing `"\n"`, as the `f.write`
calls of `logic.write_output` do. -/
def renderLines : List String → String
  | [] => ""
  | l :: ls => l ++ "\n" ++ renderLines ls

/-- `logic.write_output` (lines 156–171) as the full file contents: header
line, then one row per group key in ascending `(member_id, barcode)` order,
each row `member_id,barcode,[v1, v2, ...]` with the visit list unquoted. -/
def write_output (grouped_data : GroupedVisits) : String :=
  "member_id,barcode,visits" ++ "\n" ++
    renderLines ((List.insertionSort keyLE (grouped_data.map Prod.fst)).map
      (fun k => k.1 ++ "," ++ k.2 ++ "," ++
        ("[" ++ joinIds ((grouped_data.lookup k).getD []) ++ "]")))

/-- Split a character list at every occurrence of `sep`; always returns at
least one (possibly empty) piece, like Python `str.split(sep)`. -/
def splitChar (sep : Char) : List Char → List (List Char)
  | [] => [[]]
  | c :: cs =>
    if c = sep then [] :: splitChar sep cs
    else
      match splitChar sep cs with
      | [] => [[c]]
      | p :: ps => (c :: p) :: ps

/-- Re-join pieces with a single separator character (inverse of
`splitChar`). -/
def joinPieces (sep : Char) : List (List Char) → List Char
  | [] => []
  | [p] => p
  | p :: ps => p ++ sep :: joinPieces sep ps

/-- Drop one leading space, as needed to undo the `", "` separator after
splitting at commas. -/
def dropLeadingSpace (cs : List Char) : List Char :=
  match cs with
  | [] => []
  | c :: rest => if c = ' ' then rest else c :: rest

/-- Modelled from the spec: the repository ships no parser for the tabular
report; §8's round-trip property speaks of "re-parsing the tabular report".
Parse the visits field: strip the surrounding brackets, split at commas and
drop the space of each `", "` separator. -/
def parseVisitsField (cs : List Char) : Option (List String) :=
  match cs with
  | [] => none
  | c :: rest =>
    if c = '[' then
      if rest.getLast? = some ']' then
        match splitChar ',' rest.dropLast with
        | [] => none
        | p :: ps =>
          some (String.mk p :: ps.map (fun q => String.mk (dropLeadingSpace q)))
      else none
    else none

/-- Modelled from the spec (no parser exists in the repository): parse one
report row `member_id,barcode,[...]` — member_id up to the first comma,
barcode up to the second, the rest is the visits field. -/
def parseRowData (cs : List Char) : Option (GroupKey × List String) :=
  match splitChar ',' cs with
  | m :: b :: rest =>
    match rest with
    | [] => none
    | _ :: _ =>
      match parseVisitsField (joinPieces ',' rest) with
      | some ids => some ((String.mk m, String.mk b), ids)
      | none => none
  | _ => none

/-- Modelled from the spec (no parser exists in the repository): re-parse the
whole tabular report — split into lines, drop the header, parse each row. -/
def parse_output (content : String) : GroupedVisits :=
  match splitChar '\n' content.data with
  | [] => []
  | _header :: rest => rest.filterMap parseRowData

/-- Fields that survive the report format: no comma and no newline in the
character data. -/
def cleanStr (s : String) : Prop := ',' ∉ s.data ∧ '\n' ∉ s.data

instance (s : String) : Decidable (cleanStr s) :=
  inferInstanceAs (Decidable (_ ∧ _))

/-- A grouped entry all of whose fields survive the report format, with a
non-empty visit list. -/
def cleanEntry (kv : GroupKey × List String) : Prop :=
  cleanStr kv.1.1 ∧ cleanStr kv.1.2 ∧ kv.2 ≠ [] ∧ ∀ s ∈ kv.2, cleanStr s

instance (kv : GroupKey × List String) : Decidable (cleanEntry kv) :=
  inferInstanceAs (Decidable (_ ∧ _ ∧ _ ∧ _))

/-- Strict version of `rankLE`: strictly higher count, or equal count and
strictly smaller member_id (code-point order). -/
def rankStrict (a b : String × Nat) : Prop :=
  b.2 < a.2 ∨ (a.2 = b.2 ∧ a.1.data < b.1.data)

/-- Strict ascending `(member_id, barcode)` order on report rows. -/
def keyStrict (a b : GroupKey) : Prop :=
  a.1.data < b.1.data ∨ (a.1.data = b.1.data ∧ a.2.data < b.2.data)

instance : IsTotal (String × Nat) rankLE :=
  ⟨fun a b => by
    rcases Nat.lt_trichotomy a.2 b.2 with h | h | h
    · exact Or.inr (Or.inl h)
    · rcases le_total a.1.data b.1.data with hs | hs
      · exact Or.inl (Or.inr ⟨h, hs⟩)
      · exact Or.inr (Or.inr ⟨h.symm, hs⟩)
    · exact Or.inl (Or.inl h)⟩

instance : IsTrans (String × Nat) rankLE :=
  ⟨fun a b c hab hbc => by
    rcases hab with h1 | ⟨h1, h1s⟩ <;> rcases hbc with h2 | ⟨h2, h2s⟩
    · exact Or.inl (lt_trans h2 h1)
    · exact Or.inl (h2 ▸ h1)
    · exact Or.inl (h1 ▸ h2)
    · exact Or.inr ⟨h1.trans h2, h1s.trans h2s⟩⟩

instance : IsTotal GroupKey keyLE :=
  ⟨fun a b => by
    rcases lt_trichotomy a.1.data b.1.data with h | h | h
    · exact Or.inl (Or.inl h)
    · rcases le_total a.2.data b.2.data with hs | hs
      · exact Or.inl (Or.inr ⟨h, hs⟩)
      · exact Or.inr (Or.inr ⟨h.symm, hs⟩)
    · exact Or.inr (Or.inl h)⟩

instance : IsTrans GroupKey keyLE :=
  ⟨fun a b c hab hbc => by
    rcases hab with h1 | ⟨h1, h1s⟩ <;> rcases hbc with h2 | ⟨h2, h2s⟩
    · exact Or.inl (lt_trans h1 h2)
    · exact Or.inl (h2 ▸ h1)
    · exact Or.inl (h1 ▸ h2)
    · exact Or.inr ⟨h1.trans h2, h1s.trans h2s⟩⟩

instance : IsAntisymm GroupKey keyLE :=
  ⟨fun a b hab hba => by
    obtain ⟨a1, a2⟩ := a
    obtain ⟨b1, b2⟩ := b
    rcases hab with h1 | ⟨h1, h1s⟩ <;> rcases hba with h2 | ⟨h2, h2s⟩
    · exact absurd h2 (lt_asymm h1)
    · exact absurd (h2 ▸ h1) (lt_irrefl _)
    · exact absurd (h1 ▸ h2) (lt_irrefl _)
    · have e1 : a1 = b1 := congrArg String.mk h1
      have e2 : a2 = b2 := congrArg String.mk (le_antisymm h1s h2s)
      rw [e1, e2]⟩

/-! ### Invariants of `validate_and_group_visits` -/

theorem addVisit_sumLens (g : GroupedVisits) (k : GroupKey) (vid : String) :
    ((addVisit g k vid).map (fun kv => kv.2.length)).sum
      = (g.map (fun kv => kv.2.length)).sum + 1 := by
  induction g with
  | nil => simp [addVisit]
  | cons hd tl ih =>
    obtain ⟨k', vs⟩ := hd
    by_cases h : k' = k <;> simp [addVisit, h, ih] <;> omega

theorem vg_foldl_sum (members : Members) (visits : List Visit) :
    ∀ acc : GroupedVisits × Nat,
      ((visits.foldl (vgStep members) acc).1.map (fun kv => kv.2.length)).sum
        = (acc.1.map (fun kv => kv.2.length)).sum
          + (visits.filter (passesChecks members)).length := by
  induction visits with
  | nil => simp
  | cons v rest ih =>
    intro acc
    simp only [List.foldl_cons, List.filter_cons]
    by_cases hb : v.barcode = ""
    · have hp : passesChecks members v = false := by simp [passesChecks, hb]
      simp [vgStep, hb, hp, ih]
    · by_cases hm : (members.lookup v.barcode).getD "" = ""
      · have hp : passesChecks members v = false := by simp [passesChecks, hb, hm]
        simp [vgStep, hb, hm, hp, ih]
      · have hp : passesChecks members v = true := by simp [passesChecks, hb, hm]
        simp only [vgStep, hb, hm, if_false, ih, addVisit_sumLens]
        simp [hp]
        omega

theorem vg_foldl_walkins (members : Members) (visits : List Visit) :
    ∀ acc : GroupedVisits × Nat,
      (visits.foldl (vgStep members) acc).2
        = acc.2 + (visits.filter
            (fun v => passesChecks members v && v.reservation_id.isNone)).length := by
  induction visits with
  | nil => simp
  | cons v rest ih =>
    intro acc
    simp only [List.foldl_cons, List.filter_cons]
    by_cases hb : v.barcode = ""
    · have hp : (passesChecks members v && v.reservation_id.isNone) = false := by
        simp [passesChecks, hb]
      simp [vgStep, hb, hp, ih]
    · by_cases hm : (members.lookup v.barcode).getD "" = ""
      · have hp : (passesChecks members v && v.reservation_id.isNone) = false := by
          simp [passesChecks, hb, hm]
        simp [vgStep, hb, hm, hp, ih]
      · by_cases hr : v.reservation_id.isNone
        · have hp : (passesChecks members v && v.reservation_id.isNone) = true := by
            simp [passesChecks, hb, hm, hr]
          have hp2 : passesChecks members v = true := by simp [passesChecks, hb, hm]
          simp only [vgStep, hb, hm, if_false, ih]
          simp [hp2, hr]
          omega
        · have hp : (passesChecks members v && v.reservation_id.isNone) = false := by
            simp [passesChecks, hr]
          simp only [vgStep, hb, hm, if_false, hp, ih]
          simp [hr]

theorem addVisit_ne_nil (g : GroupedVisits) (k : GroupKey) (vid : String)
    (h : ∀ kv ∈ g, kv.2 ≠ []) : ∀ kv ∈ addVisit g k vid, kv.2 ≠ [] := by
  induction g with
  | nil => intro kv hkv; simp [addVisit] at hkv; simp [hkv]
  | cons hd tl ih =>
    obtain ⟨k', vs⟩ := hd
    intro kv hkv
    by_cases hk : k' = k
    · simp only [addVisit, hk, if_true] at hkv
      rcases List.mem_cons.mp hkv with h1 | h1
      · subst h1; simp
      · exact h kv (List.mem_cons_of_mem _ h1)
    · simp only [addVisit, hk, if_false] at hkv
      rcases List.mem_cons.mp hkv with h1 | h1
      · subst h1; exact h (k', vs) (List.mem_cons_self _ _)
      · exact ih (fun kv hkv => h kv (List.mem_cons_of_mem _ hkv)) kv h1

theorem vg_foldl_ne_nil (members : Members) (visits : List Visit) :
    ∀ acc : GroupedVisits × Nat, (∀ kv ∈ acc.1, kv.2 ≠ []) →
      ∀ kv ∈ (visits.foldl (vgStep members) acc).1, kv.2 ≠ [] := by
  induction visits with
  | nil => intro acc h; simpa using h
  | cons v rest ih =>
    intro acc hacc
    simp only [List.foldl_cons]
    apply ih
    by_cases hb : v.barcode = ""
    · simpa [vgStep, hb] using hacc
    · by_cases hm : (members.lookup v.barcode).getD "" = ""
      · simpa [vgStep, hb, hm] using hacc
      · simp only [vgStep, hb, hm, if_false]
        exact addVisit_ne_nil _ _ _ hacc

theorem vgStep_empty_member (members : Members) (acc : GroupedVisits × Nat)
    (v : Visit) (h : members.lookup v.barcode = some "") :
    vgStep members acc v = acc := by
  by_cases hb : v.barcode = "" <;> simp [vgStep, hb, h]

theorem m_lookup_mem (ms : Members) (b m : String) :
    ms.lookup b = some m → (b, m) ∈ ms := by
  induction ms with
  | nil => intro h; simp [List.lookup] at h
  | cons kv tl ih =>
    obtain ⟨k, v⟩ := kv
    intro h
    by_cases hk : b == k
    · simp only [List.lookup, hk] at h
      have hv : v = m := by simpa using h
      have hbk : b = k := eq_of_beq hk
      subst hv
      subst hbk
      exact List.mem_cons_self _ _
    · simp only [Bool.not_eq_true] at hk
      simp only [List.lookup, hk] at h
      exact List.mem_cons_of_mem _ (ih h)

theorem load_membersAux_values (rows : List MemberRow) :
    ∀ acc : Members, (∀ p ∈ acc, p.2 ≠ "") →
      ∀ p ∈ load_membersAux acc rows, p.2 ≠ "" := by
  induction rows with
  | nil => intro acc h; simpa [load_membersAux] using h
  | cons row rest ih =>
    intro acc h
    simp only [load_membersAux]
    by_cases h1 : strip (row.member_id.getD "") = ""
        ∨ strip (row.barcode.getD "") = ""
    · simp only [h1, if_true]
      exact ih acc h
    · by_cases h2 : (acc.lookup (strip (row.barcode.getD ""))).isSome
      · simp only [h1, if_false, h2, if_true]
        exact ih acc h
      · simp only [h1, if_false, h2, Bool.false_eq_true, if_false]
        apply ih
        intro p hp
        rcases List.mem_append.mp hp with hp | hp
        · exact h p hp
        · rcases not_or.mp h1 with ⟨h1a, _⟩
          have hp2 : p = (strip (row.barcode.getD ""), strip (row.member_id.getD "")) := by
            simpa using hp
          rw [hp2]
          exact h1a

theorem bs_foldl (g : GroupedVisits) :
    ∀ (a : List (String × Nat)) (b : Nat),
      g.foldl (fun (acc : List (String × Nat) × Nat) kv =>
          (addCount acc.1 kv.1.1 kv.2.length, acc.2 + kv.2.length)) (a, b)
        = (g.foldl (fun acc kv => addCount acc kv.1.1 kv.2.length) a,
           b + (g.map (fun kv => kv.2.length)).sum) := by
  induction g with
  | nil => simp
  | cons kv tl ih =>
    intro a b
    simp [ih]
    omega

theorem build_summary_total (g : GroupedVisits) (w n : Nat) :
    (build_summary g w n).total_valid_visits
      = (g.map (fun kv => kv.2.length)).sum := by
  simp [build_summary, bs_foldl]

theorem build_summary_top (g : GroupedVisits) (w n : Nat) :
    (build_summary g w n).top_members
      = (List.insertionSort rankLE (visits_per_member g)).take n := by
  simp [build_summary, bs_foldl, visits_per_member]

/-- C2: for every member mapping and visit list, the `total_valid_visits`
reported by `build_summary` on the grouping produced by
`validate_and_group_visits` equals the sum of the lengths of all grouped
visit-id sequences, and this equals the number of input visits that passed
both barcode checks (non-empty barcode resolving to a non-empty member_id,
the code's truthiness test on `members.get(barcode)`).  For a mapping
actually produced by `load_members` — which never stores an empty
member_id — passing both checks is the same as the barcode being non-empty
and present as a key (third conjunct). -/
theorem claim_C2 (members : Members) (visits : List Visit)
    (walk_in_count top_n : Nat) :
    (build_summary (validate_and_group_visits members visits).1
        walk_in_count top_n).total_valid_visits
      = ((validate_and_group_visits members visits).1.map
          (fun kv => kv.2.length)).sum
    ∧ ((validate_and_group_visits members visits).1.map
          (fun kv => kv.2.length)).sum
      = (visits.filter (passesChecks members)).length
    ∧ (∀ rows : List MemberRow, members = load_members rows →
        (visits.filter (passesChecks members)).length
          = (visits.filter (fun v =>
              !(v.barcode == "") && (members.lookup v.barcode).isSome)).length) := by
  refine ⟨build_summary_total _ walk_in_count top_n, by
    simpa [validate_and_group_visits] using vg_foldl_sum members visits ([], 0),
    ?_⟩
  intro rows hrows
  congr 1
  apply List.filter_congr
  intro v _
  cases hl : members.lookup v.barcode with
  | none => simp [passesChecks, hl]
  | some m =>
    have hm : m ≠ "" := by
      subst hrows
      exact load_membersAux_values rows [] (by simp) (v.barcode, m)
        (m_lookup_mem _ _ _ hl)
    simp [passesChecks, hl, hm]

theorem claim_C2_witness :
    ((build_summary (validate_and_group_visits (load_members
          [⟨some "m1", some "b1"⟩])
        [⟨"v1", "b1", none⟩, ⟨"v2", "bx", some "r"⟩]).1 1 5).total_valid_visits
      = ((validate_and_group_visits (load_members [⟨some "m1", some "b1"⟩])
          [⟨"v1", "b1", none⟩, ⟨"v2", "bx", some "r"⟩]).1.map
            (fun kv => kv.2.length)).sum)
    ∧ (([⟨"v1", "b1", none⟩, ⟨"v2", "bx", some "r"⟩] : List Visit).filter
          (passesChecks (load_members [⟨some "m1", some "b1"⟩]))).length
        = (([⟨"v1", "b1", none⟩, ⟨"v2", "bx", some "r"⟩] : List Visit).filter
            (fun v => !(v.barcode == "")
              && ((load_members [⟨some "m1", some "b1"⟩]).lookup
                    v.barcode).isSome)).length :=
  ⟨(claim_C2 (load_members [⟨some "m1", some "b1"⟩])
      [⟨"v1", "b1", none⟩, ⟨"v2", "bx", some "r"⟩] 1 5).1,
   (claim_C2 (load_members [⟨some "m1", some "b1"⟩])
      [⟨"v1", "b1", none⟩, ⟨"v2", "bx", some "r"⟩] 1 5).2.2
     [⟨some "m1", some "b1"⟩] rfl⟩

/-- C3: for every member mapping and visit list, the walk-in count returned
by `validate_and_group_visits` equals the number of visits that passed both
barcode checks (hence were appended into the grouping) and have no
reservation_id; rejected visits never increment the counter. -/
theorem claim_C3 (members : Members) (visits : List Visit) :
    (validate_and_group_visits members visits).2
      = (visits.filter
          (fun v => passesChecks members v && v.reservation_id.isNone)).length := by
  simpa [validate_and_group_visits] using vg_foldl_walkins members visits ([], 0)

/-- C8: a visit whose barcode is present in the member mapping but maps to
the empty member_id is rejected by `validate_and_group_visits` exactly as an
unknown barcode: it changes neither the grouping nor the walk-in counter. -/
theorem claim_C8 (members : Members) (pre post : List Visit) (v : Visit)
    (h : members.lookup v.barcode = some "") :
    validate_and_group_visits members (pre ++ v :: post)
      = validate_and_group_visits members (pre ++ post) := by
  unfold validate_and_group_visits
  rw [List.foldl_append, List.foldl_cons, vgStep_empty_member members _ v h,
    ← List.foldl_append]

theorem claim_C8_witness :
    validate_and_group_visits [("b", "")]
        [⟨"v0", "b0", none⟩, ⟨"v1", "b", none⟩]
      = validate_and_group_visits [("b", "")] [⟨"v0", "b0", none⟩] :=
  claim_C8 [("b", "")] [⟨"v0", "b0", none⟩] [] ⟨"v1", "b", none⟩ (by decide)

/-- C9: every group key present in the grouping returned by
`validate_and_group_visits` has a non-empty visit-id sequence. -/
theorem claim_C9 (members : Members) (visits : List Visit) :
    ∀ kv ∈ (validate_and_group_visits members visits).1, kv.2 ≠ [] :=
  vg_foldl_ne_nil members visits ([], 0) (by simp)

theorem claim_C9_witness :
    ((("m1", "b1"), ["v1"]) : GroupKey × List String).2 ≠ [] :=
  claim_C9 [("b1", "m1")] [⟨"v1", "b1", none⟩] (("m1", "b1"), ["v1"]) (by decide)

/-- C10: the walk-in count returned by `validate_and_group_visits` never
exceeds the total number of grouped visit ids. -/
theorem claim_C10 (members : Members) (visits : List Visit) :
    (validate_and_group_visits members visits).2
      ≤ ((validate_and_group_visits members visits).1.map
          (fun kv => kv.2.length)).sum := by
  have hle : ∀ l : List Visit,
      (l.filter (fun v => passesChecks members v && v.reservation_id.isNone)).length
        ≤ (l.filter (passesChecks members)).length := by
    intro l
    induction l with
    | nil => simp
    | cons v t ih =>
      by_cases hp : passesChecks members v
        <;> by_cases hq : v.reservation_id.isNone
        <;> simp [hp, hq, List.filter_cons]
        <;> omega
  have hs := vg_foldl_sum members visits ([], 0)
  have hw := vg_foldl_walkins members visits ([], 0)
  simp only [validate_and_group_visits]
  rw [hw, hs]
  simpa using hle visits

/-! ### Ranking -/

theorem addCount_keys (acc : List (String × Nat)) (m : String) (c : Nat) :
    (addCount acc m c).map Prod.fst
      = if m ∈ acc.map Prod.fst then acc.map Prod.fst
        else acc.map Prod.fst ++ [m] := by
  induction acc with
  | nil => simp [addCount]
  | cons kv tl ih =>
    obtain ⟨k, n⟩ := kv
    by_cases h : k = m
    · simp [addCount, h]
    · simp only [addCount, h, if_false, List.map_cons, ih]
      by_cases hm : m ∈ tl.map Prod.fst <;> simp [hm, Ne.symm h]

theorem addCount_nodup (acc : List (String × Nat)) (m : String) (c : Nat)
    (h : (acc.map Prod.fst).Nodup) :
    ((addCount acc m c).map Prod.fst).Nodup := by
  rw [addCount_keys]
  by_cases hm : m ∈ acc.map Prod.fst <;>
    simp [hm, h, List.nodup_append, List.disjoint_singleton]

theorem vpm_foldl_nodup (g : GroupedVisits) :
    ∀ acc : List (String × Nat), (acc.map Prod.fst).Nodup →
      ((g.foldl (fun acc kv => addCount acc kv.1.1 kv.2.length) acc).map
        Prod.fst).Nodup := by
  induction g with
  | nil => intro acc h; simpa using h
  | cons kv tl ih => intro acc h; exact ih _ (addCount_nodup _ _ _ h)

theorem visits_per_member_nodup (g : GroupedVisits) :
    ((visits_per_member g).map Prod.fst).Nodup :=
  vpm_foldl_nodup g [] (by simp)

theorem sorted_rank_strict (l : List (String × Nat))
    (h : (l.map Prod.fst).Nodup) :
    (List.insertionSort rankLE l).Pairwise rankStrict := by
  have hs : (List.insertionSort rankLE l).Pairwise rankLE :=
    List.sorted_insertionSort rankLE l
  have hperm : (List.insertionSort rankLE l).Perm l :=
    List.perm_insertionSort rankLE l
  have hn : ((List.insertionSort rankLE l).map Prod.fst).Nodup :=
    ((hperm.map Prod.fst).nodup_iff).mpr h
  have hne : (List.insertionSort rankLE l).Pairwise (fun a b => a.1 ≠ b.1) :=
    List.pairwise_map.mp hn
  refine (hs.and hne).imp ?_
  rintro a b ⟨hle | ⟨heq, hod⟩, hfst⟩
  · exact Or.inl hle
  · refine Or.inr ⟨heq, lt_of_le_of_ne hod fun hd => hfst ?_⟩
    cases ha : a.1
    cases hb : b.1
    simp only [ha, hb] at hd ⊢
    exact congrArg String.mk hd

/-- C1: for every grouping and every `top_n`, the top-N ranking produced by
`build_summary` (and, identically, by `print_top_members`) is the `top_n`
prefix of a full ranking of all members that is sorted by strictly
descending visit count with ties broken by strictly ascending member_id; in
particular two members with equal count appear with the lexicographically
smaller member_id first. -/
theorem claim_C1 (g : GroupedVisits) (walk_in_count top_n : Nat) :
    ∃ rest,
      ((build_summary g walk_in_count top_n).top_members ++ rest).Perm
          (visits_per_member g)
      ∧ ((build_summary g walk_in_count top_n).top_members ++ rest).Pairwise
          rankStrict
      ∧ (build_summary g walk_in_count top_n).top_members.length
          = min top_n (visits_per_member g).length
      ∧ print_top_members g top_n
          = (build_summary g walk_in_count top_n).top_members := by
  refine ⟨(List.insertionSort rankLE (visits_per_member g)).drop top_n,
    ?_, ?_, ?_, ?_⟩
  · rw [build_summary_top, List.take_append_drop]
    exact List.perm_insertionSort rankLE _
  · rw [build_summary_top, List.take_append_drop]
    exact sorted_rank_strict _ (visits_per_member_nodup g)
  · rw [build_summary_top, List.length_take,
      (List.perm_insertionSort rankLE _).length_eq]
  · rw [build_summary_top]
    rfl

/-! ### Loaders -/

theorem lookup_append_some (l₁ l₂ : Members) (b m : String)
    (h : l₁.lookup b = some m) : (l₁ ++ l₂).lookup b = some m := by
  induction l₁ with
  | nil => simp [List.lookup] at h
  | cons kv tl ih =>
    obtain ⟨k, v⟩ := kv
    by_cases hk : b == k
    · simp [List.lookup, hk] at h ⊢
      exact h
    · simp only [Bool.not_eq_true] at hk
      simp [List.lookup, hk] at h ⊢
      exact ih h

theorem lookup_append_none (l₁ l₂ : Members) (b : String)
    (h : l₁.lookup b = none) : (l₁ ++ l₂).lookup b = l₂.lookup b := by
  induction l₁ with
  | nil => simp
  | cons kv tl ih =>
    obtain ⟨k, v⟩ := kv
    by_cases hk : b == k
    · simp [List.lookup, hk] at h
    · simp only [Bool.not_eq_true] at hk
      rw [List.cons_append]
      simp only [List.lookup, hk] at h ⊢
      exact ih h

theorem load_membersAux_append (xs ys : List MemberRow) :
    ∀ acc : Members,
      load_membersAux acc (xs ++ ys)
        = load_membersAux (load_membersAux acc xs) ys := by
  induction xs with
  | nil => intro acc; rfl
  | cons row rest ih =>
    intro acc
    simp only [List.cons_append, load_membersAux]
    by_cases h1 : strip (row.member_id.getD "") = ""
        ∨ strip (row.barcode.getD "") = ""
    · simp [h1, ih]
    · by_cases h2 : (acc.lookup (strip (row.barcode.getD ""))).isSome
      · simp [h1, h2, ih]
      · simp [h1, h2, ih]

theorem load_membersAux_mono (rows : List MemberRow) :
    ∀ (acc : Members) (b m : String), acc.lookup b = some m →
      (load_membersAux acc rows).lookup b = some m := by
  induction rows with
  | nil => intro acc b m h; simpa [load_membersAux] using h
  | cons row rest ih =>
    intro acc b m h
    simp only [load_membersAux]
    by_cases h1 : strip (row.member_id.getD "") = ""
        ∨ strip (row.barcode.getD "") = ""
    · simp only [h1, if_true]
      exact ih _ _ _ h
    · by_cases h2 : (acc.lookup (strip (row.barcode.getD ""))).isSome
      · simp only [h1, if_false, h2, if_true]
        exact ih _ _ _ h
      · simp only [h1, if_false, h2]
        exact ih _ _ _ (lookup_append_some _ _ _ _ h)

theorem load_membersAux_skip (rows : List MemberRow) (b : String)
    (hrows : ∀ q ∈ rows, strip (q.member_id.getD "") = ""
        ∨ strip (q.barcode.getD "") ≠ b) :
    ∀ acc : Members, (load_membersAux acc rows).lookup b = acc.lookup b := by
  induction rows with
  | nil => intro acc; rfl
  | cons row rest ih =>
    intro acc
    have hrow := hrows row (List.mem_cons_self _ _)
    have hrest := fun q hq => hrows q (List.mem_cons_of_mem _ hq)
    simp only [load_membersAux]
    by_cases h1 : strip (row.member_id.getD "") = ""
        ∨ strip (row.barcode.getD "") = ""
    · simp only [h1, if_true]
      exact ih hrest acc
    · by_cases h2 : (acc.lookup (strip (row.barcode.getD ""))).isSome
      · simp only [h1, if_false, h2, if_true]
        exact ih hrest acc
      · simp only [h1, if_false, h2, Bool.false_eq_true, if_false]
        rw [ih hrest]
        rcases not_or.mp h1 with ⟨h1a, _⟩
        rcases hrow with h | h
        · exact absurd h h1a
        · cases hacc : acc.lookup b with
          | some m => exact lookup_append_some _ _ _ _ hacc
          | none =>
            rw [lookup_append_none _ _ _ hacc]
            have hb : (b == strip (row.barcode.getD "")) = false :=
              beq_eq_false_iff_ne.mpr (Ne.symm h)
            simp [List.lookup, hb]

/-- C6: loading members is deterministic (the embedding is a pure function,
so equal inputs give equal mappings definitionally), and when several rows
share the same trimmed barcode the mapping retains the member_id of the
first-seen valid row: if no earlier row both is valid and carries barcode
`b`, the mapping sends `b` to that row's trimmed member_id, whatever comes
later.  No exception is possible: `load_members` is total. -/
theorem claim_C6 (pre post : List MemberRow) (r : MemberRow)
    (hmid : strip (r.member_id.getD "") ≠ "")
    (hbc : strip (r.barcode.getD "") ≠ "")
    (hpre : ∀ q ∈ pre, strip (q.member_id.getD "") = ""
        ∨ strip (q.barcode.getD "") ≠ strip (r.barcode.getD "")) :
    (load_members (pre ++ r :: post)).lookup (strip (r.barcode.getD ""))
      = some (strip (r.member_id.getD "")) := by
  unfold load_members
  have hsplit : pre ++ r :: post = (pre ++ [r]) ++ post := by simp
  rw [hsplit, load_membersAux_append, load_membersAux_append]
  apply load_membersAux_mono
  have hnone : (load_membersAux [] pre).lookup (strip (r.barcode.getD ""))
      = none := by
    rw [load_membersAux_skip pre _ hpre]
    rfl
  simp only [load_membersAux]
  have h1 : ¬(strip (r.member_id.getD "") = "" ∨ strip (r.barcode.getD "") = "") := by
    simp [hmid, hbc]
  have h2 : ((load_membersAux [] pre).lookup (strip (r.barcode.getD ""))).isSome
      = false := by simp [hnone]
  simp only [h1, if_false, h2, Bool.false_eq_true]
  rw [lookup_append_none _ _ _ hnone]
  simp [List.lookup]

theorem claim_C6_witness :
    (load_members [⟨some "", some "b1"⟩, ⟨some " m1 ", some " b1 "⟩,
        ⟨some "m2", some "b1"⟩]).lookup "b1" = some "m1" :=
  claim_C6 [⟨some "", some "b1"⟩] [⟨some "m2", some "b1"⟩]
    ⟨some " m1 ", some " b1 "⟩ (by decide) (by decide) (by decide)

/-- C7: every record returned by `load_visits` has a non-empty (trimmed)
visit_id — rows whose visit_id trims to empty are dropped — and the record
produced from a row whose reservation_id trims to empty carries the
normalized absent value `none`. -/
theorem claim_C7 (rows : List VisitRow) (row : VisitRow) :
    (∀ v ∈ load_visits rows, v.visit_id ≠ "")
    ∧ (strip (row.reservation_id.getD "") = "" →
        ∀ v ∈ load_visits [row], v.reservation_id = none) := by
  constructor
  · induction rows with
    | nil => simp [load_visits]
    | cons q rest ih =>
      intro v hv
      simp only [load_visits] at hv
      by_cases h1 : strip (q.visit_id.getD "") = ""
      · rw [if_pos h1] at hv
        exact ih v hv
      · rw [if_neg h1] at hv
        rcases List.mem_cons.mp hv with h | h
        · subst h
          simpa using h1
        · exact ih v h
  · intro hres v hv
    simp only [load_visits] at hv
    by_cases h1 : strip (row.visit_id.getD "") = ""
    · rw [if_pos h1] at hv
      simp [load_visits] at hv
    · rw [if_neg h1] at hv
      rcases List.mem_cons.mp hv with h | h
      · subst h
        simp [hres]
      · simp [load_visits] at h

theorem claim_C7_witness :
    (Visit.mk "v1" "b1" none).visit_id ≠ ""
    ∧ (Visit.mk "v1" "b1" none).reservation_id = none := by
  have h := claim_C7 [⟨some "v1", some "b1", some " "⟩]
    ⟨some "v1", some "b1", some " "⟩
  exact ⟨h.1 _ (by decide), h.2 (by decide) _ (by decide)⟩

/-! ### Character-level split/join -/

theorem mk_data (s : String) : String.mk s.data = s := rfl

theorem data_inj (s t : String) (h : s.data = t.data) : s = t :=
  congrArg String.mk h

theorem splitChar_ne_nil (sep : Char) (cs : List Char) :
    splitChar sep cs ≠ [] := by
  induction cs with
  | nil => simp [splitChar]
  | cons c cs ih =>
    simp only [splitChar]
    by_cases h : c = sep
    · simp [h]
    · simp only [h, if_false]
      cases hs : splitChar sep cs with
      | nil => simp
      | cons p ps => simp

theorem splitChar_not_mem (sep : Char) (cs : List Char) (h : sep ∉ cs) :
    splitChar sep cs = [cs] := by
  induction cs with
  | nil => rfl
  | cons c cs ih =>
    simp only [List.mem_cons, not_or] at h
    simp only [splitChar, Ne.symm h.1, if_false, ih h.2]

theorem splitChar_append (sep : Char) (xs ys : List Char) (h : sep ∉ xs) :
    splitChar sep (xs ++ sep :: ys) = xs :: splitChar sep ys := by
  induction xs with
  | nil => simp [splitChar]
  | cons c cs ih =>
    simp only [List.mem_cons, not_or] at h
    simp only [List.cons_append, splitChar, Ne.symm h.1, if_false]
    have ih2 : splitChar sep (cs.append (sep :: ys)) = cs :: splitChar sep ys :=
      ih h.2
    rw [ih2]

theorem joinPieces_splitChar (sep : Char) (cs : List Char) :
    joinPieces sep (splitChar sep cs) = cs := by
  induction cs with
  | nil => rfl
  | cons c cs ih =>
    simp only [splitChar]
    by_cases h : c = sep
    · rw [if_pos h]
      cases hs : splitChar sep cs with
      | nil => exact absurd hs (splitChar_ne_nil _ _)
      | cons p ps =>
        rw [hs] at ih
        simp only [joinPieces, List.nil_append, h, ih]
    · rw [if_neg h]
      cases hs : splitChar sep cs with
      | nil => exact absurd hs (splitChar_ne_nil _ _)
      | cons p ps =>
        rw [hs] at ih
        cases ps with
        | nil => simpa [joinPieces] using congrArg (c :: ·) ih
        | cons p2 ps2 =>
          simp only [joinPieces, List.cons_append] at ih ⊢
          rw [ih]

theorem joinIds_data_cons (v w : String) (vs : List String) :
    (joinIds (v :: w :: vs)).data
      = v.data ++ ',' :: ' ' :: (joinIds (w :: vs)).data := by
  have h2 : (", " : String).data = [',', ' '] := rfl
  show (v ++ ", " ++ joinIds (w :: vs)).data = _
  simp [String.data_append, h2]

theorem splitChar_joinIds (v : String) (vs : List String)
    (hv : ',' ∉ v.data) (hvs : ∀ s ∈ vs, ',' ∉ s.data) :
    splitChar ',' (joinIds (v :: vs)).data
      = v.data :: vs.map (fun s => ' ' :: s.data) := by
  induction vs generalizing v with
  | nil => simpa [joinIds] using splitChar_not_mem ',' v.data hv
  | cons w ws ih =>
    have hw := hvs w (List.mem_cons_self _ _)
    have hws := fun s hs => hvs s (List.mem_cons_of_mem _ hs)
    rw [joinIds_data_cons, splitChar_append ',' v.data _ hv]
    have hsp : (' ' : Char) ≠ ',' := by decide
    simp only [splitChar, hsp, if_false, ih w hw hws, List.map_cons]

theorem joinIds_not_mem (c : Char) (vs : List String) (hc1 : c ≠ ',')
    (hc2 : c ≠ ' ') (h : ∀ s ∈ vs, c ∉ s.data) : c ∉ (joinIds vs).data := by
  induction vs with
  | nil => simp [joinIds]
  | cons v ws ih =>
    cases ws with
    | nil => simpa [joinIds] using h v (List.mem_cons_self _ _)
    | cons w ws2 =>
      rw [joinIds_data_cons]
      simp only [List.mem_append, List.mem_cons, not_or]
      refine ⟨h v (List.mem_cons_self _ _), hc1, hc2, ?_⟩
      exact ih fun s hs => h s (List.mem_cons_of_mem _ hs)

/-! ### Report row round-trip -/

theorem parseVisitsField_roundtrip (vs : List String) (hne : vs ≠ [])
    (hclean : ∀ s ∈ vs, ',' ∉ s.data) :
    parseVisitsField ('[' :: ((joinIds vs).data ++ [']'])) = some vs := by
  obtain ⟨v, vtl, rfl⟩ := List.exists_cons_of_ne_nil hne
  simp only [parseVisitsField, if_pos rfl, List.getLast?_concat, if_pos rfl]
  rw [List.dropLast_concat]
  rw [splitChar_joinIds v vtl (hclean v (List.mem_cons_self _ _))
    (fun s hs => hclean s (List.mem_cons_of_mem _ hs))]
  have hmap : ∀ l : List String,
      l.map ((fun q => String.mk (dropLeadingSpace q)) ∘ (fun s => ' ' :: s.data))
        = l := by
    intro l
    induction l with
    | nil => rfl
    | cons s t iht =>
      simp only [List.map_cons, iht, Function.comp]
      rfl
  simp only [List.map_map, if_true, hmap vtl, mk_data]

theorem parseRowData_roundtrip (m b : String) (vs : List String)
    (hm : ',' ∉ m.data) (hb : ',' ∉ b.data) (hne : vs ≠ [])
    (hvs : ∀ s ∈ vs, ',' ∉ s.data) :
    parseRowData
        (m ++ "," ++ b ++ "," ++ ("[" ++ joinIds vs ++ "]")).data
      = some ((m, b), vs) := by
  have hdata : (m ++ "," ++ b ++ "," ++ ("[" ++ joinIds vs ++ "]")).data
      = m.data ++ ',' :: (b.data ++ ',' :: ('[' :: ((joinIds vs).data ++ [']']))) := by
    have hcm : ("," : String).data = [','] := rfl
    have hbr : ("[" : String).data = ['['] := rfl
    have hbc : ("]" : String).data = [']'] := rfl
    simp [String.data_append, hcm, hbr, hbc]
  rw [hdata]
  have hsplit : splitChar ','
      (m.data ++ ',' :: (b.data ++ ',' :: ('[' :: ((joinIds vs).data ++ [']']))))
      = m.data :: b.data :: splitChar ',' ('[' :: ((joinIds vs).data ++ [']'])) := by
    rw [splitChar_append ',' m.data _ hm, splitChar_append ',' b.data _ hb]
  cases hP : splitChar ',' ('[' :: ((joinIds vs).data ++ [']'])) with
  | nil => exact absurd hP (splitChar_ne_nil _ _)
  | cons p ps =>
    rw [hP] at hsplit
    simp only [parseRowData, hsplit]
    have hjoin : joinPieces ',' (p :: ps) = '[' :: ((joinIds vs).data ++ [']']) := by
      rw [← hP, joinPieces_splitChar]
    rw [hjoin, parseVisitsField_roundtrip vs hne hvs]

/-! ### Report file round-trip -/

theorem renderLines_split (ls : List String) (h : ∀ l ∈ ls, '\n' ∉ l.data) :
    splitChar '\n' (renderLines ls).data = ls.map String.data ++ [[]] := by
  induction ls with
  | nil => rfl
  | cons l ls ih =>
    have hd : (renderLines (l :: ls)).data
        = l.data ++ '\n' :: (renderLines ls).data := by
      show (l ++ "\n" ++ renderLines ls).data = _
      have hn : ("\n" : String).data = ['\n'] := rfl
      simp [String.data_append, hn]
    rw [hd, splitChar_append '\n' _ _ (h l (List.mem_cons_self _ _)),
      ih (fun q hq => h q (List.mem_cons_of_mem _ hq))]
    rfl

/-! ### Association-list lookups on `GroupedVisits` -/

theorem g_lookup_mem (g : GroupedVisits) (k : GroupKey) (v : List String) :
    g.lookup k = some v → (k, v) ∈ g := by
  induction g with
  | nil => intro h; simp [List.lookup] at h
  | cons kv tl ih =>
    obtain ⟨k', v'⟩ := kv
    intro h
    by_cases hk : k == k'
    · simp only [List.lookup, hk] at h
      have hv : v' = v := by simpa using h
      have hkk : k = k' := eq_of_beq hk
      subst hv
      subst hkk
      exact List.mem_cons_self _ _
    · simp only [Bool.not_eq_true] at hk
      simp only [List.lookup, hk] at h
      exact List.mem_cons_of_mem _ (ih h)

theorem g_mem_lookup (g : GroupedVisits) (hnd : (g.map Prod.fst).Nodup)
    (k : GroupKey) (v : List String) (h : (k, v) ∈ g) :
    g.lookup k = some v := by
  induction g with
  | nil => simp at h
  | cons kv tl ih =>
    obtain ⟨k', v'⟩ := kv
    simp only [List.map_cons, List.nodup_cons] at hnd
    rcases List.mem_cons.mp h with h1 | h1
    · cases h1
      simp [List.lookup]
    · have hne : k ≠ k' := by
        rintro rfl
        exact hnd.1 (List.mem_map_of_mem Prod.fst h1)
      have hb : (k == k') = false := beq_eq_false_iff_ne.mpr hne
      simp only [List.lookup, hb]
      exact ih hnd.2 h1

theorem lookup_eq_of_perm (g₁ g₂ : GroupedVisits) (hp : g₁.Perm g₂)
    (hnd : (g₁.map Prod.fst).Nodup) (k : GroupKey) :
    g₁.lookup k = g₂.lookup k := by
  have hnd2 : (g₂.map Prod.fst).Nodup := ((hp.map Prod.fst).nodup_iff).mp hnd
  cases h1 : g₁.lookup k with
  | some v =>
    exact (g_mem_lookup g₂ hnd2 k v (hp.mem_iff.mp (g_lookup_mem g₁ k v h1))).symm
  | none =>
    cases h2 : g₂.lookup k with
    | none => rfl
    | some v =>
      have hm1 : (k, v) ∈ g₁ := hp.mem_iff.mpr (g_lookup_mem g₂ k v h2)
      rw [g_mem_lookup g₁ hnd k v hm1] at h1
      simp at h1

theorem map_fst_lookup (g : GroupedVisits) (hnd : (g.map Prod.fst).Nodup) :
    (g.map Prod.fst).map (fun k => (k, (g.lookup k).getD [])) = g := by
  have hpt : ∀ kv ∈ g, (kv.1, (g.lookup kv.1).getD []) = kv := by
    intro kv hkv
    have hl := g_mem_lookup g hnd kv.1 kv.2 hkv
    rw [hl]
    rfl
  rw [List.map_map]
  calc g.map ((fun k => (k, (g.lookup k).getD [])) ∘ Prod.fst)
      = g.map id := List.map_congr_left (fun kv hkv => hpt kv hkv)
    _ = g := List.map_id g

theorem filterMap_eq_map_of (l : List GroupKey)
    (f : List Char → Option (GroupKey × List String))
    (r : GroupKey → String) (g' : GroupKey → GroupKey × List String)
    (h : ∀ a ∈ l, f (r a).data = some (g' a)) :
    (l.map (fun a => (r a).data)).filterMap f = l.map g' := by
  induction l with
  | nil => rfl
  | cons a t ih =>
    rw [List.map_cons, List.filterMap_cons, h a (List.mem_cons_self _ _),
      List.map_cons, ih (fun x hx => h x (List.mem_cons_of_mem _ hx))]

theorem sorted_key_strict (l : List GroupKey) (h : l.Nodup) :
    (List.insertionSort keyLE l).Pairwise keyStrict := by
  have hs : (List.insertionSort keyLE l).Pairwise keyLE :=
    List.sorted_insertionSort keyLE l
  have hperm : (List.insertionSort keyLE l).Perm l :=
    List.perm_insertionSort keyLE l
  have hn : (List.insertionSort keyLE l).Pairwise (· ≠ ·) :=
    hperm.nodup_iff.mpr h
  refine (hs.and hn).imp ?_
  rintro a b ⟨hle | ⟨heq, hod⟩, hne⟩
  · exact Or.inl hle
  · refine Or.inr ⟨heq, lt_of_le_of_ne hod fun hd => hne ?_⟩
    obtain ⟨a1, a2⟩ := a
    obtain ⟨b1, b2⟩ := b
    have e1 : a1 = b1 := congrArg String.mk heq
    have e2 : a2 = b2 := congrArg String.mk hd
    rw [e1, e2]

/-- C5: for a grouping with unique keys (as any Python dict has),
`write_output` emits the header line first, then exactly one row per group
key — the rows are the sorted keys mapped to
`member_id,barcode,[v1, v2, ...]` with the unquoted bracketed comma-space
visit list — in strictly ascending lexicographic `(member_id, barcode)`
order, and the output is independent of insertion order. -/
theorem claim_C5 (g : GroupedVisits) (hnd : (g.map Prod.fst).Nodup) :
    ∃ ks : List GroupKey,
      ks.Perm (g.map Prod.fst)
      ∧ ks.Pairwise keyStrict
      ∧ write_output g
          = "member_id,barcode,visits" ++ "\n"
            ++ renderLines (ks.map (fun k =>
                k.1 ++ "," ++ k.2 ++ ","
                  ++ ("[" ++ joinIds ((g.lookup k).getD []) ++ "]")))
      ∧ ∀ g₂ : GroupedVisits, g.Perm g₂ → write_output g₂ = write_output g := by
  refine ⟨List.insertionSort keyLE (g.map Prod.fst),
    List.perm_insertionSort keyLE _, sorted_key_strict _ hnd, rfl, ?_⟩
  intro g₂ hgg
  have hkeys : List.insertionSort keyLE (g₂.map Prod.fst)
      = List.insertionSort keyLE (g.map Prod.fst) := by
    exact List.eq_of_perm_of_sorted
      ((List.perm_insertionSort keyLE _).trans
        ((hgg.map Prod.fst).symm.trans (List.perm_insertionSort keyLE _).symm))
      (List.sorted_insertionSort keyLE _)
      (List.sorted_insertionSort keyLE _)
  unfold write_output
  rw [hkeys]
  congr 1
  congr 1
  apply List.map_congr_left
  intro k _
  rw [lookup_eq_of_perm g g₂ hgg hnd k]

theorem claim_C5_witness :
    ∃ ks : List GroupKey,
      ks.Perm (([(("m2", "b2"), ["v3"]), (("m1", "b1"), ["v1"])] :
          GroupedVisits).map Prod.fst)
      ∧ ks.Pairwise keyStrict
      ∧ write_output [(("m2", "b2"), ["v3"]), (("m1", "b1"), ["v1"])]
          = "member_id,barcode,visits" ++ "\n"
            ++ renderLines (ks.map (fun k =>
                k.1 ++ "," ++ k.2 ++ ","
                  ++ ("[" ++ joinIds ((([(("m2", "b2"), ["v3"]),
                        (("m1", "b1"), ["v1"])] :
                      GroupedVisits).lookup k).getD []) ++ "]")))
      ∧ ∀ g₂ : GroupedVisits,
          ([(("m2", "b2"), ["v3"]), (("m1", "b1"), ["v1"])] :
              GroupedVisits).Perm g₂ →
            write_output g₂
              = write_output [(("m2", "b2"), ["v3"]), (("m1", "b1"), ["v1"])] :=
  claim_C5 [(("m2", "b2"), ["v3"]), (("m1", "b1"), ["v1"])] (by decide)

theorem row_data_eq (m b : String) (vs : List String) :
    (m ++ "," ++ b ++ "," ++ ("[" ++ joinIds vs ++ "]")).data
      = m.data ++ ',' :: (b.data ++ ',' :: ('[' :: ((joinIds vs).data ++ [']']))) := by
  have hcm : ("," : String).data = [','] := rfl
  have hbr : ("[" : String).data = ['['] := rfl
  have hbc : ("]" : String).data = [']'] := rfl
  simp [String.data_append, hcm, hbr, hbc]

/-- C4 (amended): for a grouping with unique keys whose member_ids,
barcodes and visit_ids contain neither comma nor newline and whose visit
lists are non-empty, re-parsing the rendered report recovers exactly the
entries of the grouping (same key set, same visit lists in order):
the parsed association list is a permutation of the original one. -/
theorem claim_C4 (g : GroupedVisits) (hnd : (g.map Prod.fst).Nodup)
    (hclean : ∀ kv ∈ g, cleanEntry kv) :
    (parse_output (write_output g)).Perm g := by
  have hperm : (List.insertionSort keyLE (g.map Prod.fst)).Perm
      (g.map Prod.fst) := List.perm_insertionSort keyLE _
  have hkey : ∀ k ∈ List.insertionSort keyLE (g.map Prod.fst),
      ∃ vs, g.lookup k = some vs ∧ cleanEntry (k, vs) := by
    intro k hk
    have hk2 : k ∈ g.map Prod.fst := hperm.mem_iff.mp hk
    obtain ⟨kv, hkv, rfl⟩ := List.mem_map.mp hk2
    exact ⟨kv.2, g_mem_lookup g hnd kv.1 kv.2 hkv, hclean kv hkv⟩
  have hnonl : ∀ l ∈ (List.insertionSort keyLE (g.map Prod.fst)).map
      (fun k => k.1 ++ "," ++ k.2 ++ ","
        ++ ("[" ++ joinIds ((g.lookup k).getD []) ++ "]")),
      '\n' ∉ l.data := by
    intro l hl
    obtain ⟨k, hk, rfl⟩ := List.mem_map.mp hl
    obtain ⟨vs, hvs, hcl⟩ := hkey k hk
    rw [hvs]
    simp only [Option.getD_some]
    rw [row_data_eq]
    have hjoin : '\n' ∉ (joinIds vs).data :=
      joinIds_not_mem '\n' vs (by decide) (by decide)
        (fun s hs => (hcl.2.2.2 s hs).2)
    simp only [List.mem_append, List.mem_cons, List.mem_singleton, not_or]
    exact ⟨hcl.1.2, by decide, hcl.2.1.2, by decide, by decide, hjoin, by decide⟩
  have hheader : ('\n') ∉ ("member_id,barcode,visits" : String).data := by decide
  have hcontent : (write_output g).data
      = ("member_id,barcode,visits" : String).data
          ++ '\n' :: (renderLines ((List.insertionSort keyLE
              (g.map Prod.fst)).map (fun k => k.1 ++ "," ++ k.2 ++ ","
                ++ ("[" ++ joinIds ((g.lookup k).getD []) ++ "]")))).data := by
    unfold write_output
    have hn : ("\n" : String).data = ['\n'] := rfl
    simp [String.data_append, hn]
  have hsplit : splitChar '\n' (write_output g).data
      = ("member_id,barcode,visits" : String).data
          :: (((List.insertionSort keyLE (g.map Prod.fst)).map
              (fun k => k.1 ++ "," ++ k.2 ++ ","
                ++ ("[" ++ joinIds ((g.lookup k).getD []) ++ "]"))).map
                  String.data ++ [[]]) := by
    rw [hcontent, splitChar_append '\n' _ _ hheader, renderLines_split _ hnonl]
  simp only [parse_output, hsplit]
  rw [List.filterMap_append]
  have hnil : ([[]] : List (List Char)).filterMap parseRowData = [] := rfl
  rw [hnil, List.append_nil, List.map_map]
  have hmm : ((fun s => String.data s) ∘ fun k : GroupKey =>
        k.1 ++ "," ++ k.2 ++ "," ++ ("[" ++ joinIds ((g.lookup k).getD []) ++ "]"))
      = fun k : GroupKey => ((fun k : GroupKey => k.1 ++ "," ++ k.2 ++ ","
          ++ ("[" ++ joinIds ((g.lookup k).getD []) ++ "]")) k).data := rfl
  have hpt : ∀ k ∈ List.insertionSort keyLE (g.map Prod.fst),
      parseRowData ((fun k : GroupKey => k.1 ++ "," ++ k.2 ++ ","
          ++ ("[" ++ joinIds ((g.lookup k).getD []) ++ "]")) k).data
        = some ((fun k => (k, (g.lookup k).getD [])) k) := by
    intro k hk
    obtain ⟨vs, hvs, hcl⟩ := hkey k hk
    simp only [hvs, Option.getD_some]
    exact parseRowData_roundtrip k.1 k.2 vs hcl.1.1 hcl.2.1.1 hcl.2.2.1
      (fun s hs => (hcl.2.2.2 s hs).1)
  rw [show ((List.insertionSort keyLE (g.map Prod.fst)).map
        ((fun s => String.data s) ∘ fun k : GroupKey =>
          k.1 ++ "," ++ k.2 ++ "," ++ ("[" ++ joinIds ((g.lookup k).getD []) ++ "]")))
      = ((List.insertionSort keyLE (g.map Prod.fst)).map
          (fun k : GroupKey => ((fun k : GroupKey => k.1 ++ "," ++ k.2 ++ ","
            ++ ("[" ++ joinIds ((g.lookup k).getD []) ++ "]")) k).data)) from rfl]
  rw [filterMap_eq_map_of _ parseRowData _ (fun k => (k, (g.lookup k).getD [])) hpt]
  have hfin := hperm.map (fun k => (k, (g.lookup k).getD []))
  rwa [map_fst_lookup g hnd] at hfin

theorem claim_C4_witness :
    (parse_output (write_output
        [(("m2", "b2"), ["v3"]), (("m1", "b1"), ["v1", "v2"])])).Perm
      [(("m2", "b2"), ["v3"]), (("m1", "b1"), ["v1", "v2"])] :=
  claim_C4 [(("m2", "b2"), ["v3"]), (("m1", "b1"), ["v1", "v2"])]
    (by decide) (by decide)

/-- C4 counterexample: with a comma inside a member_id the claim fails as
stated for arbitrary groupings — the rendered row `a,b,c,[v]` re-parses
with member_id `a` and barcode `b`, so nothing of the original key
survives; here the parse rejects the visits field and recovers no row at
all, while the grouping is non-empty. -/
theorem claim_C4_counterexample :
    parse_output (write_output [(("a,b", "c"), ["v"])]) = []
    ∧ ([(("a,b", "c"), ["v"])] : GroupedVisits) ≠ [] := by
  constructor
  · decide
  · decide

end Cineville
